import Mathlib

/-!
Shallow embedding of `stepwise_selection` from
`src/pstatmodel/stepwise/base.py` (the later of the two variants, the one
every claim cites).

Modelling conventions, justified against the source:

* Column names are natural numbers; `X` enters only through its column list
  and through the external OLS fitter, so the context carries `cols` and an
  opaque `fit : List ℕ → FitRes` giving, for a fit of `y` on
  `X[cols'] + intercept`, the per-column p-values and the R².
* Machine floats are modelled by `ℚ`.  `np.round(x, 2)` / `round(x, 3)`
  round half to even; `round2` / `round3` reproduce that exactly.
* Line 45, `list(set(X.columns) - set(included))`, iterates a Python set,
  whose order the source does not determine (string hashing); the context
  therefore carries the iteration order as an explicit `excl` function.
* Line 51 stores `round(model.rsquared, 3) ** 0.5` and every later use
  compares such a value with `0.9` (lines 121, 160).  `ℚ` has no square
  root, so the embedding stores `round3 r²` and compares with
  `0.81 = 0.9²`, which is equivalent for the nonnegative R² values the
  fitter returns.
* `y` enters only the NaN test on line 38; it is a `List (Option ℚ)` with
  `none` for NaN, and the NaN sentinels of the return value on line 39 are
  `none` fields of `Result`.
* `list.pop(i)` with `i` out of range raises `IndexError`; the embedding
  returns `none` there (and on exhausted fuel for the two loops, which the
  source runs unboundedly).
* `nfits` counts calls to the fitter and `nresets` counts firings of the
  one-time reset on lines 140-148; both are pure instrumentation and are
  read by no branch of the embedded code.
-/

namespace Pstat

/-! Kernel-computable rational arithmetic.  The core `Rat.add`, `Rat.sub`
    and `Rat.mul` do not reduce inside the kernel, so runs of the embedded
    code could not be evaluated by `decide`; the following versions reduce,
    and are proved equal to the ring operations below (`qadd_eq`,
    `qsub_eq`, `qmul_eq`).  Numeric literals are written `mkRat n d` for
    the same reason (`mkRatq`). -/

def qadd (a b : ℚ) : ℚ := mkRat (a.num * b.den + b.num * a.den) (a.den * b.den)

def qsub (a b : ℚ) : ℚ := mkRat (a.num * b.den - b.num * a.den) (a.den * b.den)

def qmul (a b : ℚ) : ℚ := mkRat (a.num * b.num) (a.den * b.den)

/-- Round half to even, as Python's `round` and `np.round` do on ties. -/
def roundHalfEven (q : ℚ) : ℤ :=
  if qsub q (⌊q⌋ : ℚ) < mkRat 1 2 then ⌊q⌋
  else if mkRat 1 2 < qsub q (⌊q⌋ : ℚ) then ⌊q⌋ + 1
  else if ⌊q⌋ % 2 = 0 then ⌊q⌋ else ⌊q⌋ + 1

/-- `np.round(q, decimals=2)`. -/
def round2 (q : ℚ) : ℚ := mkRat (roundHalfEven (qmul q 100)) 100

/-- `round(q, 3)`. -/
def round3 (q : ℚ) : ℚ := mkRat (roundHalfEven (qmul q 1000)) 1000

/-- Minimum of the nonempty list `a :: l` (`pandas.Series.min`). -/
def listMin : ℚ → List ℚ → ℚ
  | a, [] => a
  | a, b :: t => min a (listMin b t)

/-- Maximum of the nonempty list `a :: l` (`pandas.Series.max`). -/
def listMax : ℚ → List ℚ → ℚ
  | a, [] => a
  | a, b :: t => max a (listMax b t)

/-- Position of the first minimum of `a :: l` (`pandas.Series.argmin`,
    which returns the first position attaining the minimum). -/
def argminIdx : ℚ → List ℚ → ℕ
  | _, [] => 0
  | a, b :: t => if listMin b t < a then argminIdx b t + 1 else 0

/-- Position of the first maximum of `a :: l` (`pandas.Series.argmax`). -/
def argmaxIdx : ℚ → List ℚ → ℕ
  | _, [] => 0
  | a, b :: t => if a < listMax b t then argmaxIdx b t + 1 else 0

/-- Number of leading `true`s of a boolean mask.  Lines 93-100 compute
    `mask[: np.where(mask == False)[0][0]].sum()` when `mask` has a `False`
    (the slice before the first `False` is all `True`, so the sum is its
    length) and `mask.sum()` otherwise (then all entries are `True`); both
    equal the length of the longest all-`true` prefix. -/
def leadTrueCount (mask : List Bool) : ℕ := (mask.takeWhile (fun b => b)).length

/-- `np.where(mask == False)[0]`: indices of the `false` entries. -/
def falseIdxs (mask : List Bool) : List ℕ :=
  (List.range mask.length).filter (fun i => mask.getD i true = false)

/-- Lines 132-134: the `False` positions of the final mask, restricted to
    positions `> 3` when `rcond` was set. -/
def mfalseOf (rc : Bool) (mask : List Bool) : List ℕ :=
  if rc then (falseIdxs mask).filter (fun i => 3 < i) else falseIdxs mask

/-- Black-box result of one `sm.OLS(...).fit()`: p-values indexed by column
    name (the intercept's p-value is never read by the selector) and R². -/
structure FitRes where
  pvalue : ℕ → ℚ
  rsquared : ℚ

/-- Immutable data of one invocation: the columns of `X`, the opaque fitter,
    the set-difference iteration order of line 45, the caller-supplied
    thresholds (`threshold_in` is the retained `_threshold_in` of line 32)
    and the size bounds. -/
structure Ctx where
  cols : List ℕ
  fit : List ℕ → FitRes
  excl : List ℕ → List ℕ
  threshold_in : ℚ
  threshold_out : ℚ
  max_vars : ℕ
  min_vars : ℕ

/-- Mutable state of the outer `while True:` loop, lines 29-37 plus the
    `model` variable of line 63 and the two instrumentation counters. -/
structure St where
  included : List ℕ
  pvals : List ℚ
  rvals : List ℚ
  t_in : ℚ
  lower : Bool
  rcond : Bool
  dropped : Bool
  onetime : Bool
  model : Option FitRes
  nfits : ℕ
  nresets : ℕ

/-- The returned triple of line 176 (plus the fit counter); `none` fields
    are the NaN sentinels of line 39. -/
structure Result where
  included : List ℕ
  model : Option FitRes
  t_in : Option ℚ
  nfits : ℕ

/-- State of the tightening sub-loop, lines 81-131: its threshold, `psize`,
    `idem`, the (frozen) two tracks and the current `mask` / `rcond`. -/
structure TState where
  t_in : ℚ
  psize : ℕ
  idem : Bool
  pvals : List ℚ
  rvals : List ℚ
  mask : List Bool
  rcond : Bool
  deriving DecidableEq

/-- Lines 29-37: initial state.  Line 33 overwrites the working threshold
    with `0.1`; the caller's value survives only in `Ctx.threshold_in`. -/
def initSt (initial_list : List ℕ) : St :=
  { included := initial_list, pvals := [], rvals := [], t_in := mkRat 1 10,
    lower := false, rcond := false, dropped := false, onetime := true,
    model := none, nfits := 0, nresets := 0 }

/-- Forward step, lines 44-61.  One fit per excluded candidate; if the
    minimal candidate p-value is below the working threshold, the first
    candidate (in `excl` order) attaining it is appended to `included` and
    both tracks.  The boolean is `changed`-due-to-addition. -/
def forward (ctx : Ctx) (s : St) : St × Bool :=
  let excluded := ctx.excl s.included
  let pv := excluded.map (fun c => (ctx.fit (s.included ++ [c])).pvalue c)
  let rv := excluded.map (fun c => round3 (ctx.fit (s.included ++ [c])).rsquared)
  let s1 : St := { s with nfits := s.nfits + excluded.length }
  match pv with
  | [] => (s1, false)
  | p :: ps =>
    if listMin p ps < s.t_in then
      let i := argminIdx p ps
      ({ s1 with included := s.included ++ [excluded.getD i 0],
                 pvals := s.pvals ++ [listMin p ps],
                 rvals := s.rvals ++ [rv.getD i 0] }, true)
    else (s1, false)

/-- Backward step, lines 62-76.  Fit on the whole `included`; if the worst
    non-intercept p-value exceeds `threshold_out`, drop that feature from
    `included` and pop the same index from both tracks.  `none` models the
    `IndexError` of `list.pop` when a track is shorter than the pop index;
    the boolean is `changed`-due-to-drop (which also sets `dropped`). -/
def backward (ctx : Ctx) (s : St) : Option (St × Bool) :=
  let m := ctx.fit s.included
  let s1 : St := { s with model := some m, nfits := s.nfits + 1 }
  match s.included.map m.pvalue with
  | [] => some (s1, false)
  | p :: ps =>
    if ctx.threshold_out < listMax p ps then
      let wf := s.included.getD (argmaxIdx p ps) 0
      let idx := s.included.indexOf wf
      if idx < s1.pvals.length ∧ idx < s1.rvals.length then
        some ({ s1 with included := s1.included.erase wf,
                        pvals := s1.pvals.eraseIdx idx,
                        rvals := s1.rvals.eraseIdx idx,
                        dropped := true }, true)
      else none
    else some (s1, false)

/-- One iteration of the sub-loop body, lines 84-131.  `.inl`: the body
    ended in `continue` (lines 112, 130); `.inr`: it ended in `break`
    (line 131), carrying the final mask/threshold/`rcond`. -/
def tightenStep (ctx : Ctx) (ts : TState) : TState ⊕ TState :=
  let t := round2 (max (mkRat 1 100) (qsub ts.t_in (mkRat 1 100)))
  let tN := round2 (max (mkRat 1 100) (qsub t (mkRat 1 100)))
  let mask := ts.pvals.map (fun q => decide (q < t))
  let maskN := ts.pvals.map (fun q => decide (q < tN))
  let psize := leadTrueCount mask
  let psizeN := leadTrueCount maskN
  if psize = psizeN ∧ t ≠ mkRat 1 100 ∧ psize ≠ 0 ∧ ctx.min_vars ≤ psize then
    .inl { ts with t_in := t, mask := mask, psize := psize, idem := true }
  else if ctx.min_vars ≤ psize ∧ psize ≤ ctx.max_vars then
    .inr { ts with t_in := t, mask := mask, psize := psize, idem := false }
  else if psize < ctx.min_vars ∨ t = mkRat 1 10 ∨ t = mkRat 1 100 then
    .inr { ts with
      t_in := if psize ≠ 13 then round2 (min (mkRat 1 10) (qadd t (mkRat 1 100))) else t,
      mask := ts.rvals.map (fun q => decide (q < mkRat 81 100)),
      psize := psize, idem := false, rcond := true }
  else
    .inl { ts with t_in := t, mask := mask, psize := psize, idem := false }

/-- The sub-loop driver: `while psize > max_vars or idem:` (line 84), with
    fuel for the unbounded iteration. -/
def tightenRun (ctx : Ctx) : ℕ → TState → Option TState
  | 0, _ => none
  | fuel + 1, ts =>
    if ctx.max_vars < ts.psize ∨ ts.idem = true then
      match tightenStep ctx ts with
      | .inl ts' => tightenRun ctx fuel ts'
      | .inr tf => some tf
    else some ts

/-- Line 176 as seen from a continuing state. -/
def mkRes (s : St) : Result :=
  { included := s.included, model := s.model, t_in := some s.t_in, nfits := s.nfits }

/-- Lines 81-83: sub-loop entry state (`psize = 999`, `idem = False`;
    `mask` is still unassigned in Python, here `[]`). -/
def initTState (s : St) : TState :=
  { t_in := s.t_in, psize := 999, idem := false, pvals := s.pvals,
    rvals := s.rvals, mask := [], rcond := s.rcond }

/-- Over-capacity handling, lines 81-138: run the tightening sub-loop, then
    truncate `included` at the first `False` of the final mask (positions
    `≤ 3` discarded when `rcond`) and refit, or keep everything when the
    mask has no such `False`; in both cases the outer loop breaks.  When
    `max_vars ≥ 999` the sub-loop body never runs and line 132 reads the
    unassigned `mask` (`NameError`): `none`. -/
def overCap (ctx : Ctx) (fI : ℕ) (s : St) : Option Result :=
  if 999 ≤ ctx.max_vars then none
  else
    match tightenRun ctx fI (initTState s) with
    | none => none
    | some tf =>
      match (mfalseOf tf.rcond tf.mask).head? with
      | some k =>
        some { included := s.included.take k,
               model := some (ctx.fit (s.included.take k)),
               t_in := some tf.t_in, nfits := s.nfits + 1 }
      | none =>
        some { included := s.included, model := s.model,
               t_in := some tf.t_in, nfits := s.nfits }

/-- Line 160's test: `round(model.rsquared, 3) ** 0.5 > 0.9`, encoded on
    the squares (`model` is always assigned when this is read). -/
def modelRsq (s : St) : ℚ := round3 ((s.model.map FitRes.rsquared).getD 0)

/-- Lines 139-163, the `elif dropped:` chain; returns the updated state and
    the updated `changed` flag. -/
def postDrop (ctx : Ctx) (s : St) (changed : Bool) : St × Bool :=
  if s.dropped = true then
    if s.t_in = mkRat 1 10 ∧ s.onetime = true then
      ({ s with t_in := ctx.threshold_in, included := [], pvals := [],
                rvals := [], onetime := false, nresets := s.nresets + 1 }, true)
    else if ctx.max_vars < s.included.length ∧ s.t_in ≠ mkRat 1 100 ∧ s.lower = false then
      ({ s with t_in := round2 (max (mkRat 1 100) (qsub s.t_in (mkRat 1 100))),
                included := [], pvals := [], rvals := [] }, true)
    else if ctx.min_vars ≤ s.included.length ∧ s.lower = true then
      (s, if mkRat 81 100 < modelRsq s then false else changed)
    else (s, changed)
  else (s, changed)

/-- Lines 165-175, the stall handling reached with `changed` false:
    raise the threshold and restart, or `break`. -/
def stall (ctx : Ctx) (s : St) : St ⊕ Result :=
  if s.included.length < ctx.min_vars ∧ s.t_in ≠ mkRat 1 10 then
    .inl { s with t_in := round2 (min (mkRat 1 10) (qadd s.t_in (mkRat 1 100))),
                  included := [], pvals := [], rvals := [], lower := true }
  else .inr (mkRes s)

/-- One pass of the outer `while True:` loop, lines 42-175.  `.inl`: the
    loop continues with the new state; `.inr`: it breaks and returns. -/
def stepOuter (ctx : Ctx) (fI : ℕ) (s0 : St) : Option (St ⊕ Result) :=
  let fw := forward ctx s0
  match backward ctx fw.1 with
  | none => none
  | some (s2, drop) =>
    let changed := fw.2 || drop
    if ctx.min_vars ≤ s2.included.length ∧ s2.included.length ≤ ctx.max_vars ∧
        changed = false then
      some (.inr (mkRes s2))
    else if ctx.max_vars < s2.included.length ∧ s2.dropped = false then
      (overCap ctx fI s2).map .inr
    else
      let pd := postDrop ctx s2 changed
      if pd.2 = true then some (.inl pd.1) else some (stall ctx pd.1)

/-- The outer loop with fuel. -/
def run (ctx : Ctx) (fI : ℕ) : ℕ → St → Option Result
  | 0, _ => none
  | fuel + 1, s =>
    match stepOuter ctx fI s with
    | none => none
    | some (.inl s') => run ctx fI fuel s'
    | some (.inr r) => some r

/-- The whole function, lines 6-176: NaN test up front (line 38), then the
    loop from the initial state. -/
def stepwise_selection (ctx : Ctx) (initial_list : List ℕ)
    (y : List (Option ℚ)) (fI fuel : ℕ) : Option Result :=
  if y.any (fun v => v.isNone) then
    some { included := [], model := none, t_in := none, nfits := 0 }
  else run ctx fI fuel (initSt initial_list)

/-- One continuing pass. -/
def Step (ctx : Ctx) (fI : ℕ) (s s' : St) : Prop :=
  stepOuter ctx fI s = some (.inl s')

/-- States reachable from `s` across whole passes of the outer loop. -/
def Reach (ctx : Ctx) (fI : ℕ) : St → St → Prop :=
  Relation.ReflTransGen (Step ctx fI)

/-- Iterate continuing passes (for exhibiting concrete reachable states). -/
def iterSt (ctx : Ctx) (fI : ℕ) : ℕ → St → Option St
  | 0, s => some s
  | n + 1, s =>
    match stepOuter ctx fI s with
    | some (.inl s') => iterSt ctx fI n s'
    | _ => none

/-- The state after the forward and backward steps of a pass, at which the
    branch conditions of lines 78-80 and 139 are evaluated. -/
def midSt (ctx : Ctx) (s : St) : Option St :=
  (backward ctx (forward ctx s).1).map Prod.fst

/-- Decidable projection of a run's observable result. -/
def resObs (r : Option Result) : Option (List ℕ × Option ℚ × ℕ) :=
  r.map (fun x => (x.included, x.t_in, x.nfits))

/-- The spec's invariant on the working threshold: an integer multiple of
    0.01 lying in [0.01, 0.1]. -/
def Pth (t : ℚ) : Prop := ∃ k : ℤ, 1 ≤ k ∧ k ≤ 10 ∧ t = (k : ℚ) / 100

/-- The spec's parallel-track invariant. -/
def Align (s : St) : Prop :=
  s.pvals.length = s.included.length ∧ s.rvals.length = s.included.length

/-- At most one firing of the one-time reset, tied to the `onetime` flag. -/
def ResetInv (s : St) : Prop :=
  s.nresets ≤ 1 ∧ (s.onetime = true → s.nresets = 0)

/-- Invariant along the sub-loop when entered with `rcond` clear: the two
    tracks are frozen, `rcond` stays clear on every `continue`, and the
    loop condition of line 84 keeps holding. -/
def TInv (ctx : Ctx) (P R : List ℚ) (ts : TState) : Prop :=
  ts.pvals = P ∧ ts.rvals = R ∧ ts.rcond = false ∧
    (ts.idem = true ∨ ctx.max_vars < ts.psize)

/-! Concrete instantiations used to exhibit runs of the embedded code.
    `mkCtxA q` is a two-column data set whose fits make the selector add
    column 0, then add column 1 and at once drop column 0, which fires the
    one-time reset; the caller-requested threshold is `q`. -/

def mkCtxA (tin : ℚ) : Ctx :=
  { cols := [0, 1],
    fit := fun l =>
      if l = [0] then ⟨fun c => if c = 0 then mkRat 1 100 else 1, mkRat 1 2⟩
      else if l = [1] then ⟨fun c => if c = 1 then mkRat 1 5 else 1, mkRat 1 2⟩
      else if l = [0, 1] then
        ⟨fun c => if c = 0 then mkRat 1 2 else if c = 1 then mkRat 1 20 else 1,
         mkRat 1 2⟩
      else ⟨fun _ => 1, 0⟩,
    excl := fun inc => [0, 1].filter (fun c => decide (¬ c ∈ inc)),
    threshold_in := tin, threshold_out := mkRat 1 10, max_vars := 12,
    min_vars := 1 }

/-- Five columns: 0 and 1 strongly significant, 2-4 at p = 0.05; every fit
    reports R² = 0.9.  With `max_vars = min_vars = 4` the selector adds all
    five columns and enters over-capacity handling. -/
def c7fit : List ℕ → FitRes :=
  fun _ => ⟨fun c => if c = 0 then mkRat 1 1000 else if c = 1 then mkRat 1 500
    else mkRat 1 20, mkRat 9 10⟩

def c7ctx : Ctx :=
  { cols := [0, 1, 2, 3, 4], fit := c7fit,
    excl := fun inc => [0, 1, 2, 3, 4].filter (fun c => decide (¬ c ∈ inc)),
    threshold_in := mkRat 1 20, threshold_out := mkRat 1 10, max_vars := 4,
    min_vars := 4 }

/-- The mid-pass state of the over-capacity pass of the `c7ctx` run
    (tracks as recorded, threshold still 0.1). -/
def sW7 : St :=
  { included := [0, 1, 2, 3, 4],
    pvals := [mkRat 1 1000, mkRat 1 500, mkRat 1 20, mkRat 1 20, mkRat 1 20],
    rvals := [mkRat 9 10, mkRat 9 10, mkRat 9 10, mkRat 9 10, mkRat 9 10],
    t_in := mkRat 1 10,
    lower := false, rcond := false, dropped := false, onetime := true,
    model := none, nfits := 0, nresets := 0 }

/-- Where the tightening sub-loop stops on `sW7`. -/
def tf7 : TState :=
  { t_in := mkRat 3 50, psize := 2, idem := false,
    pvals := [mkRat 1 1000, mkRat 1 500, mkRat 1 20, mkRat 1 20, mkRat 1 20],
    rvals := [mkRat 9 10, mkRat 9 10, mkRat 9 10, mkRat 9 10, mkRat 9 10],
    mask := [false, false, false, false, false], rcond := true }

/-- A state whose recorded model quality is low everywhere, so the
    quality mask of line 121 has no `False` and nothing is truncated. -/
def sW10 : St :=
  { included := [0, 1, 2, 3, 4],
    pvals := [mkRat 1 20, mkRat 1 20, mkRat 1 20, mkRat 1 20, mkRat 1 20],
    rvals := [mkRat 1 2, mkRat 1 2, mkRat 1 2, mkRat 1 2, mkRat 1 2],
    t_in := mkRat 1 10,
    lower := false, rcond := false, dropped := false, onetime := true,
    model := none, nfits := 3, nresets := 0 }

/-- Where the tightening sub-loop stops on `sW10`. -/
def tf10 : TState :=
  { t_in := mkRat 3 50, psize := 0, idem := false,
    pvals := [mkRat 1 20, mkRat 1 20, mkRat 1 20, mkRat 1 20, mkRat 1 20],
    rvals := [mkRat 1 2, mkRat 1 2, mkRat 1 2, mkRat 1 2, mkRat 1 2],
    mask := [true, true, true, true, true], rcond := true }

/-- Sub-loop state that keeps iterating: four tiny recorded p-values over a
    capacity of two. -/
def c6ctx : Ctx := { mkCtxA (mkRat 1 20) with min_vars := 1, max_vars := 2 }

def c6ts : TState :=
  { t_in := mkRat 2 25, psize := 999, idem := false,
    pvals := [mkRat 1 1000, mkRat 1 1000, mkRat 1 1000, mkRat 1 1000],
    rvals := [], mask := [], rcond := false }

def c6ts' : TState :=
  { c6ts with
      t_in := mkRat 7 100
      psize := 4
      idem := true
      mask := [true, true, true, true] }

/-- Two fits with identical, tied candidate p-values. -/
def tieFit : List ℕ → FitRes := fun _ => ⟨fun _ => mkRat 1 20, mkRat 1 2⟩

def ctxTieA : Ctx :=
  { cols := [0, 1], fit := tieFit,
    excl := fun inc => [0, 1].filter (fun c => decide (¬ c ∈ inc)),
    threshold_in := mkRat 1 20, threshold_out := mkRat 1 10, max_vars := 12,
    min_vars := 1 }

/-- Same data, same fits — only the set-iteration order differs. -/
def ctxTieB : Ctx :=
  { ctxTieA with excl := fun inc => [1, 0].filter (fun c => decide (¬ c ∈ inc)) }

/-- A context on which the selection `[0]` is stable: the only other
    candidate sits at p = 1/2 and column 0 itself at p = 1/100. -/
def c5wctx : Ctx :=
  { cols := [0, 1],
    fit := fun l =>
      if l = [0] then ⟨fun c => if c = 0 then mkRat 1 100 else 1, mkRat 1 2⟩
      else ⟨fun _ => mkRat 1 2, mkRat 1 2⟩,
    excl := fun inc => [0, 1].filter (fun c => decide (¬ c ∈ inc)),
    threshold_in := mkRat 1 10, threshold_out := mkRat 1 10, max_vars := 12,
    min_vars := 1 }

/-- A state on which the backward step drops column 0 (p-value 1/2 under
    `mkCtxA`'s fit of `[0, 1]`). -/
def s8 : St :=
  { included := [0, 1], pvals := [mkRat 1 100, mkRat 1 20],
    rvals := [mkRat 1 2, mkRat 1 2], t_in := mkRat 1 10, lower := false,
    rcond := false, dropped := false, onetime := true, model := none,
    nfits := 5, nresets := 0 }

/-! ### Elementary facts about the list helpers -/

theorem listMin_mem : ∀ (a : ℚ) (l : List ℚ), listMin a l ∈ a :: l
  | _, [] => List.mem_singleton_self _
  | a, b :: t => by
    rcases min_choice a (listMin b t) with h | h
    · rw [listMin, h]; exact List.mem_cons_self _ _
    · rw [listMin, h]; exact List.mem_cons_of_mem _ (listMin_mem b t)

theorem listMin_le : ∀ (a : ℚ) (l : List ℚ) (x : ℚ), x ∈ a :: l → listMin a l ≤ x
  | a, [], x, hx => by
    rw [List.mem_singleton] at hx
    rw [listMin, hx]
  | a, b :: t, x, hx => by
    rw [List.mem_cons] at hx
    rcases hx with rfl | hx
    · exact min_le_left _ _
    · exact le_trans (min_le_right _ _) (listMin_le b t x hx)

theorem listMax_mem : ∀ (a : ℚ) (l : List ℚ), listMax a l ∈ a :: l
  | _, [] => List.mem_singleton_self _
  | a, b :: t => by
    rcases max_choice a (listMax b t) with h | h
    · rw [listMax, h]; exact List.mem_cons_self _ _
    · rw [listMax, h]; exact List.mem_cons_of_mem _ (listMax_mem b t)

theorem le_listMax : ∀ (a : ℚ) (l : List ℚ) (x : ℚ), x ∈ a :: l → x ≤ listMax a l
  | a, [], x, hx => by
    rw [List.mem_singleton] at hx
    rw [listMax, hx]
  | a, b :: t, x, hx => by
    rw [List.mem_cons] at hx
    rcases hx with rfl | hx
    · exact le_max_left _ _
    · exact le_trans (le_listMax b t x hx) (le_max_right _ _)

theorem argminIdx_lt : ∀ (a : ℚ) (l : List ℚ), argminIdx a l < l.length + 1
  | _, [] => Nat.zero_lt_one
  | a, b :: t => by
    rw [argminIdx]
    split
    · simpa [List.length_cons] using Nat.succ_lt_succ (argminIdx_lt b t)
    · simp

theorem getD_argminIdx : ∀ (a : ℚ) (l : List ℚ),
    (a :: l).getD (argminIdx a l) 0 = listMin a l
  | _, [] => rfl
  | a, b :: t => by
    rw [argminIdx, listMin]
    split
    · next h =>
      rw [List.getD_cons_succ, getD_argminIdx b t, min_eq_right (le_of_lt h)]
    · next h =>
      rw [List.getD_cons_zero, min_eq_left (not_lt.mp h)]

theorem argminIdx_first : ∀ (a : ℚ) (l : List ℚ) (j : ℕ), j < argminIdx a l →
    listMin a l < (a :: l).getD j 0
  | a, [], j, hj => absurd hj (by rw [argminIdx]; exact Nat.not_lt_zero j)
  | a, b :: t, j, hj => by
    rw [argminIdx] at hj
    rw [listMin]
    split at hj
    · next h =>
      rw [min_eq_right (le_of_lt h)]
      cases j with
      | zero => simpa using h
      | succ j =>
        rw [List.getD_cons_succ]
        exact argminIdx_first b t j (Nat.lt_of_succ_lt_succ hj)
    · exact absurd hj (Nat.not_lt_zero j)

theorem argmaxIdx_lt : ∀ (a : ℚ) (l : List ℚ), argmaxIdx a l < l.length + 1
  | _, [] => Nat.zero_lt_one
  | a, b :: t => by
    rw [argmaxIdx]
    split
    · simpa [List.length_cons] using Nat.succ_lt_succ (argmaxIdx_lt b t)
    · simp

theorem getD_argmaxIdx : ∀ (a : ℚ) (l : List ℚ),
    (a :: l).getD (argmaxIdx a l) 0 = listMax a l
  | _, [] => rfl
  | a, b :: t => by
    rw [argmaxIdx, listMax]
    split
    · next h =>
      rw [List.getD_cons_succ, getD_argmaxIdx b t, max_eq_right (le_of_lt h)]
    · next h =>
      rw [List.getD_cons_zero, max_eq_left (not_lt.mp h)]

theorem argmaxIdx_first : ∀ (a : ℚ) (l : List ℚ) (j : ℕ), j < argmaxIdx a l →
    (a :: l).getD j 0 < listMax a l
  | a, [], j, hj => absurd hj (by rw [argmaxIdx]; exact Nat.not_lt_zero j)
  | a, b :: t, j, hj => by
    rw [argmaxIdx] at hj
    rw [listMax]
    split at hj
    · next h =>
      rw [max_eq_right (le_of_lt h)]
      cases j with
      | zero => simpa using h
      | succ j =>
        rw [List.getD_cons_succ]
        exact argmaxIdx_first b t j (Nat.lt_of_succ_lt_succ hj)
    · exact absurd hj (Nat.not_lt_zero j)

/-! ### Bridges between the kernel-computable operations and the ring -/

theorem mkRatq (n : ℤ) (d : ℕ) : (mkRat n d : ℚ) = (n : ℚ) / (d : ℚ) := by
  rw [Rat.mkRat_eq_divInt, Rat.divInt_eq_div]
  norm_num

theorem qadd_eq (a b : ℚ) : qadd a b = a + b := by
  have ha : (a.den : ℚ) ≠ 0 := Nat.cast_ne_zero.mpr a.den_nz
  have hb : (b.den : ℚ) ≠ 0 := Nat.cast_ne_zero.mpr b.den_nz
  rw [qadd, Rat.mkRat_eq_divInt, Rat.divInt_eq_div]
  push_cast
  rw [div_eq_iff (mul_ne_zero ha hb)]
  have h1 : (a.num : ℚ) = a * a.den := (div_eq_iff ha).mp (Rat.num_div_den a)
  have h2 : (b.num : ℚ) = b * b.den := (div_eq_iff hb).mp (Rat.num_div_den b)
  rw [h1, h2]
  ring

theorem qsub_eq (a b : ℚ) : qsub a b = a - b := by
  have ha : (a.den : ℚ) ≠ 0 := Nat.cast_ne_zero.mpr a.den_nz
  have hb : (b.den : ℚ) ≠ 0 := Nat.cast_ne_zero.mpr b.den_nz
  rw [qsub, Rat.mkRat_eq_divInt, Rat.divInt_eq_div]
  push_cast
  rw [div_eq_iff (mul_ne_zero ha hb)]
  have h1 : (a.num : ℚ) = a * a.den := (div_eq_iff ha).mp (Rat.num_div_den a)
  have h2 : (b.num : ℚ) = b * b.den := (div_eq_iff hb).mp (Rat.num_div_den b)
  rw [h1, h2]
  ring

theorem qmul_eq (a b : ℚ) : qmul a b = a * b := by
  have ha : (a.den : ℚ) ≠ 0 := Nat.cast_ne_zero.mpr a.den_nz
  have hb : (b.den : ℚ) ≠ 0 := Nat.cast_ne_zero.mpr b.den_nz
  rw [qmul, Rat.mkRat_eq_divInt, Rat.divInt_eq_div]
  push_cast
  rw [div_eq_iff (mul_ne_zero ha hb)]
  have h1 : (a.num : ℚ) = a * a.den := (div_eq_iff ha).mp (Rat.num_div_den a)
  have h2 : (b.num : ℚ) = b * b.den := (div_eq_iff hb).mp (Rat.num_div_den b)
  rw [h1, h2]
  ring

theorem mkRat_half : (mkRat 1 2 : ℚ) = 1/2 := by rw [mkRatq]; norm_num

theorem mkRat_tenth : (mkRat 1 10 : ℚ) = 1/10 := by rw [mkRatq]; norm_num

theorem mkRat_hundredth : (mkRat 1 100 : ℚ) = 1/100 := by rw [mkRatq]; norm_num

theorem round2_eq (q : ℚ) :
    round2 q = ((roundHalfEven (q * 100) : ℤ) : ℚ) / 100 := by
  rw [round2, qmul_eq, mkRatq]
  norm_num

/-! ### Facts about the half-to-even rounding -/

theorem roundHalfEven_cases (q : ℚ) :
    roundHalfEven q = ⌊q⌋ ∨ (roundHalfEven q = ⌊q⌋ + 1 ∧ 1/2 ≤ q - ⌊q⌋) := by
  simp only [roundHalfEven, qsub_eq, mkRat_half]
  split
  · exact Or.inl rfl
  · next h1 =>
    split
    · next h2 => exact Or.inr ⟨rfl, le_of_lt h2⟩
    · split
      · exact Or.inl rfl
      · exact Or.inr ⟨rfl, not_lt.mp h1⟩

theorem roundHalfEven_le (q : ℚ) : (roundHalfEven q : ℚ) ≤ q + 1/2 := by
  have hf := Int.floor_le q
  rcases roundHalfEven_cases q with h | ⟨h, _⟩ <;> rw [h] <;> push_cast <;> linarith

theorem roundHalfEven_intCast (k : ℤ) : roundHalfEven (k : ℚ) = k := by
  rcases roundHalfEven_cases (k : ℚ) with h | ⟨_, h2⟩
  · rwa [Int.floor_intCast] at h
  · rw [Int.floor_intCast, sub_self] at h2
    norm_num at h2

theorem round2_intDiv (k : ℤ) : round2 ((k : ℚ) / 100) = (k : ℚ) / 100 := by
  rw [round2_eq, div_mul_cancel₀ _ (show (100 : ℚ) ≠ 0 by norm_num),
    roundHalfEven_intCast]

theorem round2_le (q : ℚ) : round2 q ≤ q + 1/200 := by
  have h := roundHalfEven_le (q * 100)
  rw [round2_eq, div_le_iff₀ (show (0 : ℚ) < 100 by norm_num)]
  linarith

theorem intDiv_le_intDiv {a b : ℤ} (h : a ≤ b) : (a : ℚ) / 100 ≤ (b : ℚ) / 100 := by
  apply div_le_div_of_nonneg_right ?_ ?_ |>.trans_eq rfl
  · exact_mod_cast h
  · norm_num

theorem max_intDiv (a b : ℤ) :
    max ((a : ℚ) / 100) ((b : ℚ) / 100) = ((max a b : ℤ) : ℚ) / 100 := by
  rcases le_total a b with h | h
  · rw [max_eq_right (intDiv_le_intDiv h), max_eq_right h]
  · rw [max_eq_left (intDiv_le_intDiv h), max_eq_left h]

theorem min_intDiv (a b : ℤ) :
    min ((a : ℚ) / 100) ((b : ℚ) / 100) = ((min a b : ℤ) : ℚ) / 100 := by
  rcases le_total a b with h | h
  · rw [min_eq_left (intDiv_le_intDiv h), min_eq_left h]
  · rw [min_eq_right (intDiv_le_intDiv h), min_eq_right h]

/-- Lowering by 0.01 with floor 0.01 (lines 85, 151) preserves `Pth`. -/
theorem Pth_lower {t : ℚ} (h : Pth t) :
    Pth (round2 (max (mkRat 1 100) (qsub t (mkRat 1 100)))) := by
  rw [qsub_eq, mkRat_hundredth]
  obtain ⟨k, hk1, hk10, rfl⟩ := h
  have h1 : (k : ℚ) / 100 - 1/100 = ((k - 1 : ℤ) : ℚ) / 100 := by push_cast; ring
  have h2 : (1 : ℚ) / 100 = ((1 : ℤ) : ℚ) / 100 := by norm_num
  rw [h1, h2, max_intDiv, round2_intDiv]
  exact ⟨max 1 (k - 1), le_max_left _ _, max_le (by omega) (by omega), rfl⟩

/-- Raising by 0.01 with ceiling 0.1 (lines 123-125, 167) preserves `Pth`. -/
theorem Pth_raise {t : ℚ} (h : Pth t) :
    Pth (round2 (min (mkRat 1 10) (qadd t (mkRat 1 100)))) := by
  rw [qadd_eq, mkRat_hundredth, mkRat_tenth]
  obtain ⟨k, hk1, hk10, rfl⟩ := h
  have h1 : (k : ℚ) / 100 + 1/100 = ((k + 1 : ℤ) : ℚ) / 100 := by push_cast; ring
  have h2 : (1 : ℚ) / 10 = ((10 : ℤ) : ℚ) / 100 := by norm_num
  rw [h1, h2, min_intDiv, round2_intDiv]
  exact ⟨min 10 (k + 1), le_min (by omega) (by omega), min_le_left _ _, rfl⟩

/-! ### Case analysis of one outer pass -/

/-- A continuing pass goes through `forward`, `backward` and `postDrop`, and
    ends either because `postDrop` left `changed` set or through the
    restart branch of `stall`. -/
theorem stepOuter_inl {ctx : Ctx} {fI : ℕ} {s s' : St}
    (h : stepOuter ctx fI s = some (.inl s')) :
    ∃ s2 drop, backward ctx (forward ctx s).1 = some (s2, drop) ∧
      ((postDrop ctx s2 ((forward ctx s).2 || drop)).2 = true ∧
         s' = (postDrop ctx s2 ((forward ctx s).2 || drop)).1 ∨
       (postDrop ctx s2 ((forward ctx s).2 || drop)).2 = false ∧
         stall ctx (postDrop ctx s2 ((forward ctx s).2 || drop)).1 = .inl s') := by
  simp only [stepOuter] at h
  cases hb : backward ctx (forward ctx s).1 with
  | none => rw [hb] at h; exact absurd h (by simp)
  | some p =>
    obtain ⟨s2, drop⟩ := p
    rw [hb] at h
    refine ⟨s2, drop, rfl, ?_⟩
    simp only [] at h
    split at h
    · exact absurd h (by simp)
    · split at h
      · cases hoc : overCap ctx fI s2 with
        | none => rw [hoc] at h; exact absurd h (by simp)
        | some r => rw [hoc] at h; exact absurd h (by simp)
      · split at h
        · next hpd =>
          simp only [Option.some.injEq, Sum.inl.injEq] at h
          exact Or.inl ⟨hpd, h.symm⟩
        · next hpd =>
          exact Or.inr ⟨by simpa using hpd, by simpa using h⟩

/-- Fields a `forward` step never touches. -/
theorem forward_const (ctx : Ctx) (s : St) :
    (forward ctx s).1.t_in = s.t_in ∧ (forward ctx s).1.lower = s.lower ∧
    (forward ctx s).1.rcond = s.rcond ∧ (forward ctx s).1.dropped = s.dropped ∧
    (forward ctx s).1.onetime = s.onetime ∧ (forward ctx s).1.model = s.model ∧
    (forward ctx s).1.nresets = s.nresets := by
  simp only [forward]
  split
  · exact ⟨rfl, rfl, rfl, rfl, rfl, rfl, rfl⟩
  · split <;> exact ⟨rfl, rfl, rfl, rfl, rfl, rfl, rfl⟩

/-- Fields a `backward` step never touches. -/
theorem backward_const {ctx : Ctx} {s s' : St} {b : Bool}
    (h : backward ctx s = some (s', b)) :
    s'.t_in = s.t_in ∧ s'.lower = s.lower ∧ s'.rcond = s.rcond ∧
    s'.onetime = s.onetime ∧ s'.nresets = s.nresets := by
  simp only [backward] at h
  split at h
  · simp only [Option.some.injEq, Prod.mk.injEq] at h
    rw [← h.1]
    exact ⟨rfl, rfl, rfl, rfl, rfl⟩
  · split at h
    · split at h
      · simp only [Option.some.injEq, Prod.mk.injEq] at h
        rw [← h.1]
        exact ⟨rfl, rfl, rfl, rfl, rfl⟩
      · exact absurd h (by simp)
    · simp only [Option.some.injEq, Prod.mk.injEq] at h
      rw [← h.1]
      exact ⟨rfl, rfl, rfl, rfl, rfl⟩

/-! ### Track alignment (claim C3) -/

theorem forward_align (ctx : Ctx) (s : St) (h : Align s) : Align (forward ctx s).1 := by
  obtain ⟨hp, hr⟩ := h
  simp only [forward]
  split
  · exact ⟨hp, hr⟩
  · split
    · constructor <;> simp [hp, hr]
    · exact ⟨hp, hr⟩

theorem backward_align {ctx : Ctx} {s s' : St} {b : Bool}
    (h : backward ctx s = some (s', b)) (hal : Align s) : Align s' := by
  obtain ⟨hp, hr⟩ := hal
  simp only [backward] at h
  split at h
  · simp only [Option.some.injEq, Prod.mk.injEq] at h
    rw [← h.1]
    exact ⟨hp, hr⟩
  · next p ps heq =>
    split at h
    · split at h
      · next hguard =>
        simp only [Option.some.injEq, Prod.mk.injEq] at h
        have hlen : s.included.length = ps.length + 1 := by
          have := congrArg List.length heq
          simpa using this
        have hargl := argmaxIdx_lt p ps
        have hmem : s.included.getD (argmaxIdx p ps) 0 ∈ s.included := by
          rw [List.getD_eq_getElem?_getD, List.getElem?_eq_getElem (by omega)]
          exact List.getElem_mem _
        rw [← h.1]
        refine ⟨?_, ?_⟩
        · simp only [List.length_eraseIdx_of_lt hguard.1,
            List.length_erase_of_mem hmem]
          omega
        · simp only [List.length_eraseIdx_of_lt hguard.2,
            List.length_erase_of_mem hmem]
          omega
      · exact absurd h (by simp)
    · simp only [Option.some.injEq, Prod.mk.injEq] at h
      rw [← h.1]
      exact ⟨hp, hr⟩

theorem postDrop_align (ctx : Ctx) (s : St) (ch : Bool) (h : Align s) :
    Align (postDrop ctx s ch).1 := by
  simp only [postDrop]
  split
  · split
    · exact ⟨rfl, rfl⟩
    · split
      · exact ⟨rfl, rfl⟩
      · split
        · exact h
        · exact h
  · exact h

theorem stall_inl_align {ctx : Ctx} {s s' : St} (h : stall ctx s = .inl s') :
    Align s' := by
  simp only [stall] at h
  split at h
  · simp only [Sum.inl.injEq] at h
    rw [← h]
    exact ⟨rfl, rfl⟩
  · exact absurd h (by simp)

theorem step_align {ctx : Ctx} {fI : ℕ} {s s' : St} (h : Step ctx fI s s')
    (hal : Align s) : Align s' := by
  obtain ⟨s2, drop, hb, hcase⟩ := stepOuter_inl h
  have h2 : Align s2 := backward_align hb (forward_align ctx s hal)
  rcases hcase with ⟨_, rfl⟩ | ⟨_, hs⟩
  · exact postDrop_align _ _ _ h2
  · exact stall_inl_align hs

/-! ### The one-time reset fires at most once (claim C1) -/

theorem backward_resetInv {ctx : Ctx} {s s' : St} {b : Bool}
    (h : backward ctx s = some (s', b)) (hr : ResetInv s) : ResetInv s' := by
  obtain ⟨-, -, -, h4, h5⟩ := backward_const h
  exact ⟨h5 ▸ hr.1, fun ho => h5 ▸ hr.2 (h4 ▸ ho)⟩

theorem forward_resetInv (ctx : Ctx) (s : St) (hr : ResetInv s) :
    ResetInv (forward ctx s).1 := by
  obtain ⟨-, -, -, -, h5, -, h7⟩ := forward_const ctx s
  exact ⟨h7 ▸ hr.1, fun ho => h7 ▸ hr.2 (h5 ▸ ho)⟩

theorem postDrop_resetInv (ctx : Ctx) (s : St) (ch : Bool) (hr : ResetInv s) :
    ResetInv (postDrop ctx s ch).1 := by
  obtain ⟨h1, h2⟩ := hr
  simp only [postDrop]
  split
  · split
    · next hc =>
      have h0 := h2 hc.2
      refine ⟨?_, fun hfalse => absurd hfalse (by simp)⟩
      show s.nresets + 1 ≤ 1
      omega
    · split
      · exact ⟨h1, h2⟩
      · split
        · exact ⟨h1, h2⟩
        · exact ⟨h1, h2⟩
  · exact ⟨h1, h2⟩

theorem stall_inl_resetInv {ctx : Ctx} {s s' : St} (h : stall ctx s = .inl s')
    (hr : ResetInv s) : ResetInv s' := by
  simp only [stall] at h
  split at h
  · simp only [Sum.inl.injEq] at h
    rw [← h]
    exact hr
  · exact absurd h (by simp)

theorem step_resetInv {ctx : Ctx} {fI : ℕ} {s s' : St} (h : Step ctx fI s s')
    (hr : ResetInv s) : ResetInv s' := by
  obtain ⟨s2, drop, hb, hcase⟩ := stepOuter_inl h
  have h2 : ResetInv s2 := backward_resetInv hb (forward_resetInv ctx s hr)
  rcases hcase with ⟨_, rfl⟩ | ⟨_, hs⟩
  · exact postDrop_resetInv _ _ _ h2
  · exact stall_inl_resetInv hs (postDrop_resetInv _ _ _ h2)

/-! ### The working threshold stays a clamped multiple of 0.01
    as long as the caller's seed is one (claim C4) -/

theorem postDrop_Pth (ctx : Ctx) (s : St) (ch : Bool)
    (hctx : Pth ctx.threshold_in) (h : Pth s.t_in) :
    Pth (postDrop ctx s ch).1.t_in := by
  simp only [postDrop]
  split
  · split
    · exact hctx
    · split
      · exact Pth_lower h
      · split
        · exact h
        · exact h
  · exact h

theorem stall_inl_Pth {ctx : Ctx} {s s' : St} (h : stall ctx s = .inl s')
    (hp : Pth s.t_in) : Pth s'.t_in := by
  simp only [stall] at h
  split at h
  · simp only [Sum.inl.injEq] at h
    rw [← h]
    exact Pth_raise hp
  · exact absurd h (by simp)

theorem step_Pth {ctx : Ctx} {fI : ℕ} {s s' : St} (hctx : Pth ctx.threshold_in)
    (h : Step ctx fI s s') (hp : Pth s.t_in) : Pth s'.t_in := by
  obtain ⟨s2, drop, hb, hcase⟩ := stepOuter_inl h
  have h2 : Pth s2.t_in := by
    rw [(backward_const hb).1, (forward_const ctx s).1]
    exact hp
  rcases hcase with ⟨_, rfl⟩ | ⟨_, hs⟩
  · exact postDrop_Pth _ _ _ hctx h2
  · exact stall_inl_Pth hs (postDrop_Pth _ _ _ hctx h2)

/-- Each branch of a tightening iteration also preserves `Pth`. -/
theorem tightenStep_Pth (ctx : Ctx) (ts : TState) (h : Pth ts.t_in) :
    Pth (Sum.elim TState.t_in TState.t_in (tightenStep ctx ts)) := by
  simp only [tightenStep]
  split
  · exact Pth_lower h
  · split
    · exact Pth_lower h
    · split
      · simp only [Sum.elim_inr]
        split
        · exact Pth_raise (Pth_lower h)
        · exact Pth_lower h
      · exact Pth_lower h

/-! ### The tightening sub-loop (claims C6, C7, C10) -/

theorem TInv_init {ctx : Ctx} {s : St} (h999 : ctx.max_vars < 999)
    (hrc : s.rcond = false) : TInv ctx s.pvals s.rvals (initTState s) :=
  ⟨rfl, rfl, hrc, Or.inr h999⟩

theorem tightenStep_inl_inv {ctx : Ctx} {P R : List ℚ} {ts ts' : TState}
    (h : TInv ctx P R ts) (heq : tightenStep ctx ts = .inl ts') :
    TInv ctx P R ts' := by
  obtain ⟨hP, hR, hrc, _⟩ := h
  simp only [tightenStep] at heq
  split at heq
  · simp only [Sum.inl.injEq] at heq
    rw [← heq]
    exact ⟨hP, hR, hrc, Or.inl rfl⟩
  · split at heq
    · exact absurd heq (by simp)
    · split at heq
      · exact absurd heq (by simp)
      · next hc2 hc3 =>
        simp only [Sum.inl.injEq] at heq
        rw [← heq]
        refine ⟨hP, hR, hrc, Or.inr ?_⟩
        push_neg at hc2 hc3
        exact hc2 hc3.1

theorem tightenStep_inr_char {ctx : Ctx} {P R : List ℚ} {ts tf : TState}
    (h : TInv ctx P R ts) (heq : tightenStep ctx ts = .inr tf) :
    tf.pvals = P ∧ tf.rvals = R ∧
      ((tf.rcond = false ∧ tf.mask = P.map (fun q => decide (q < tf.t_in)) ∧
          tf.psize = leadTrueCount tf.mask ∧
          ctx.min_vars ≤ tf.psize ∧ tf.psize ≤ ctx.max_vars) ∨
       (tf.rcond = true ∧ tf.mask = R.map (fun q => decide (q < mkRat 81 100)))) := by
  obtain ⟨hP, hR, hrc, _⟩ := h
  simp only [tightenStep] at heq
  split at heq
  · exact absurd heq (by simp)
  · split at heq
    · next hc2 =>
      simp only [Sum.inr.injEq] at heq
      rw [← heq]
      refine ⟨hP, hR, Or.inl ⟨hrc, ?_, rfl, hc2.1, hc2.2⟩⟩
      rw [hP]
    · split at heq
      · simp only [Sum.inr.injEq] at heq
        rw [← heq]
        exact ⟨hP, hR, Or.inr ⟨rfl, by rw [hR]⟩⟩
      · exact absurd heq (by simp)

theorem tightenRun_char {ctx : Ctx} {P R : List ℚ} :
    ∀ (fuel : ℕ) (ts tf : TState), TInv ctx P R ts →
      tightenRun ctx fuel ts = some tf →
      tf.pvals = P ∧ tf.rvals = R ∧
        ((tf.rcond = false ∧ tf.mask = P.map (fun q => decide (q < tf.t_in)) ∧
            tf.psize = leadTrueCount tf.mask ∧
            ctx.min_vars ≤ tf.psize ∧ tf.psize ≤ ctx.max_vars) ∨
         (tf.rcond = true ∧ tf.mask = R.map (fun q => decide (q < mkRat 81 100)))) := by
  intro fuel
  induction fuel with
  | zero =>
    intro ts tf _ h
    exact absurd h (by simp [tightenRun])
  | succ n ih =>
    intro ts tf hinv h
    rw [tightenRun, if_pos ?cond] at h
    case cond => rcases hinv.2.2.2 with h1 | h1; exacts [Or.inr h1, Or.inl h1]
    cases hstep : tightenStep ctx ts with
    | inl ts' =>
      rw [hstep] at h
      exact ih ts' tf (tightenStep_inl_inv hinv hstep) h
    | inr tf' =>
      rw [hstep] at h
      simp only [Option.some.injEq] at h
      rw [← h]
      exact tightenStep_inr_char hinv hstep

/-- A lowered-and-rounded threshold that did not land on the floor 0.01 is
    strictly below the old one. -/
theorem round2_lower_lt {t : ℚ}
    (hne : round2 (max (1/100) (t - 1/100)) ≠ 1/100) :
    round2 (max (1/100) (t - 1/100)) < t := by
  rcases le_total (t - 1/100) (1/100) with hle | hle
  · rw [max_eq_left hle] at hne
    refine absurd ?_ hne
    rw [show (1 : ℚ)/100 = ((1 : ℤ) : ℚ)/100 by norm_num, round2_intDiv]
  · rw [max_eq_right hle]
    have h1 := round2_le (t - 1/100)
    have h2 : (1 : ℚ)/100 ≤ t - 1/100 := hle
    linarith

/-! ### The first `False` of a mask is the leading-`true` count -/

theorem head_filter_range : ∀ (n : ℕ) (p : ℕ → Bool) (k : ℕ),
    ((List.range n).filter p).head? = some k →
    p k = true ∧ k < n ∧ ∀ j < k, p j = false := by
  intro n
  induction n with
  | zero =>
    intro p k h
    simp [List.range_zero] at h
  | succ n ih =>
    intro p k h
    rw [List.range_succ_eq_map, List.filter_cons] at h
    by_cases hp0 : p 0 = true
    · rw [if_pos hp0] at h
      simp only [List.head?_cons, Option.some.injEq] at h
      subst h
      exact ⟨hp0, Nat.succ_pos n, fun j hj => absurd hj (Nat.not_lt_zero j)⟩
    · rw [if_neg hp0, List.filter_map, List.head?_map] at h
      cases hh : ((List.range n).filter (p ∘ Nat.succ)).head? with
      | none => rw [hh] at h; exact absurd h (by simp)
      | some k' =>
        rw [hh] at h
        simp only [Option.map_some'] at h
        obtain ⟨h1, h2, h3⟩ := ih (p ∘ Nat.succ) k' hh
        injection h with h
        rw [← h]
        refine ⟨h1, by omega, ?_⟩
        intro j hj
        cases j with
        | zero => simpa using hp0
        | succ j' => exact h3 j' (by omega)

theorem leadTrueCount_cons_true (t : List Bool) :
    leadTrueCount (true :: t) = leadTrueCount t + 1 := by
  simp [leadTrueCount, List.takeWhile_cons]

theorem leadTrueCount_cons_false (t : List Bool) :
    leadTrueCount (false :: t) = 0 := by
  simp [leadTrueCount, List.takeWhile_cons]

theorem leadTrueCount_eq : ∀ (m : List Bool) (k : ℕ),
    k < m.length → m.getD k true = false → (∀ j < k, m.getD j true = true) →
    leadTrueCount m = k := by
  intro m
  induction m with
  | nil =>
    intro k hk _ _
    exact absurd hk (by simp)
  | cons b t ih =>
    intro k hk hf hp
    cases k with
    | zero =>
      have hb : b = false := by simpa using hf
      rw [hb, leadTrueCount_cons_false]
    | succ k' =>
      have hb : b = true := by simpa using hp 0 (Nat.succ_pos k')
      have ht : leadTrueCount t = k' :=
        ih k' (by simpa using hk) (by simpa using hf)
          (fun j hj => by simpa using hp (j + 1) (by omega))
      rw [hb, leadTrueCount_cons_true, ht]

theorem head_falseIdxs {m : List Bool} {k : ℕ}
    (h : (falseIdxs m).head? = some k) : leadTrueCount m = k ∧ k < m.length := by
  obtain ⟨h1, h2, h3⟩ := head_filter_range m.length _ k h
  refine ⟨leadTrueCount_eq m k h2 (by simpa using h1) ?_, h2⟩
  intro j hj
  have h4 := h3 j hj
  cases hx : m.getD j true with
  | true => rfl
  | false => rw [hx] at h4; simp at h4

/-! ### No-change forward and backward passes (claims C5, C9) -/

/-- When no candidate beats the working threshold the forward step only
    burns fits. -/
theorem forward_noadd (ctx : Ctx) (s : St)
    (h : ∀ c ∈ ctx.excl s.included, ¬ ((ctx.fit (s.included ++ [c])).pvalue c < s.t_in)) :
    forward ctx s = ({ s with nfits := s.nfits + (ctx.excl s.included).length }, false) := by
  simp only [forward]
  split
  · rfl
  · next p ps heq =>
    rw [if_neg]
    intro hlt
    have hmem := listMin_mem p ps
    rw [← heq] at hmem
    obtain ⟨c, hc, hcp⟩ := List.mem_map.mp hmem
    exact h c hc (hcp ▸ hlt)

/-- When no included feature's p-value exceeds `threshold_out` the backward
    step only refits and records the model. -/
theorem backward_nodrop (ctx : Ctx) (s : St)
    (h : ∀ x ∈ s.included.map (ctx.fit s.included).pvalue, x ≤ ctx.threshold_out) :
    backward ctx s =
      some ({ s with model := some (ctx.fit s.included), nfits := s.nfits + 1 }, false) := by
  simp only [backward]
  split
  · rfl
  · next p ps heq =>
    rw [if_neg]
    intro hlt
    have hmem := listMax_mem p ps
    rw [← heq] at hmem
    exact absurd (h _ hmem) (not_le.mpr hlt)

/-- `iterSt` produces reachable states. -/
theorem iterSt_reach (ctx : Ctx) (fI : ℕ) :
    ∀ (n : ℕ) (s s' : St), iterSt ctx fI n s = some s' → Reach ctx fI s s' := by
  intro n
  induction n with
  | zero =>
    intro s s' h
    simp only [iterSt, Option.some.injEq] at h
    rw [h]
    exact Relation.ReflTransGen.refl
  | succ n ih =>
    intro s s' h
    rw [iterSt] at h
    cases hstep : stepOuter ctx fI s with
    | none => rw [hstep] at h; exact absurd h (by simp)
    | some x =>
      cases x with
      | inl s1 =>
        rw [hstep] at h
        exact Relation.ReflTransGen.head hstep (ih s1 s' h)
      | inr r => rw [hstep] at h; exact absurd h (by simp)

/-! ### Small helper -/

theorem getD_lt {l : List ℕ} {i : ℕ} (h : i < l.length) : l.getD i 0 = l[i] := by
  rw [List.getD_eq_getElem?_getD, List.getElem?_eq_getElem h]
  rfl

/-- A one-pass stop: when the state is within the size bounds, no excluded
    candidate beats the working threshold and no included p-value exceeds
    `threshold_out`, the pass breaks on line 79 returning the state's
    selection unchanged. -/
theorem stepOuter_stop (ctx : Ctx) (fI : ℕ) (s : St)
    (hfwd : ∀ c ∈ ctx.excl s.included,
      ¬ ((ctx.fit (s.included ++ [c])).pvalue c < s.t_in))
    (hbwd : ∀ x ∈ s.included.map (ctx.fit s.included).pvalue, x ≤ ctx.threshold_out)
    (hmin : ctx.min_vars ≤ s.included.length)
    (hmax : s.included.length ≤ ctx.max_vars) :
    stepOuter ctx fI s = some (.inr
      { included := s.included, model := some (ctx.fit s.included),
        t_in := some s.t_in,
        nfits := s.nfits + (ctx.excl s.included).length + 1 }) := by
  have h1 := forward_noadd ctx s hfwd
  have h2 := backward_nodrop ctx
    ({ s with nfits := s.nfits + (ctx.excl s.included).length }) hbwd
  simp only [stepOuter, h1, h2]
  rw [if_pos ⟨hmin, hmax, rfl⟩]
  rfl

/-! ## The claims -/

/-- C1 (corrected): the working inclusion threshold starts at 0.1 whatever
    the caller requested, the caller's value being retained in the context
    for the later reset, and the one-time reset of lines 140-148 fires at
    most once per invocation.  The claim's firing condition is corrected:
    the reset does not wait for the size to be out of bounds — it fires on
    any pass that reaches the `elif dropped:` chain with the sticky
    `dropped` flag set, working threshold equal to 0.1 and the reset still
    unused, also when the Included size is inside the bounds. -/
theorem c1_forced_start_and_single_reset (ctx : Ctx) (fI : ℕ) (l : List ℕ) :
    (initSt l).t_in = 1/10 ∧
    (∀ s, Reach ctx fI (initSt l) s → s.nresets ≤ 1) ∧
    (∀ (s : St) (ch : Bool),
      (postDrop ctx s ch).1.nresets = s.nresets + 1 ↔
        s.dropped = true ∧ s.t_in = 1/10 ∧ s.onetime = true) := by
  refine ⟨mkRat_tenth, ?_, ?_⟩
  · intro s hs
    suffices h : ResetInv s from h.1
    induction hs with
    | refl => exact ⟨Nat.zero_le 1, fun _ => rfl⟩
    | tail _ hstep ih => exact step_resetInv hstep ih
  · intro s ch
    simp only [postDrop]
    split
    · next hdrop =>
      split
      · next hc =>
        exact iff_of_true rfl ⟨hdrop, by rw [hc.1, mkRat_tenth], hc.2⟩
      · next hc =>
        have hcn : ¬ (s.t_in = 1/10 ∧ s.onetime = true) := by
          rw [← mkRat_tenth]
          exact hc
        split
        · exact iff_of_false (by simp) (fun hr => hcn ⟨hr.2.1, hr.2.2⟩)
        · split
          · exact iff_of_false (by simp) (fun hr => hcn ⟨hr.2.1, hr.2.2⟩)
          · exact iff_of_false (by simp) (fun hr => hcn ⟨hr.2.1, hr.2.2⟩)
    · next hdrop =>
      exact iff_of_false (by simp) (fun hr => hdrop hr.1)

theorem c1_forced_start_and_single_reset_witness :
    (initSt [0]).t_in = 1/10 ∧ (initSt [0]).nresets ≤ 1 :=
  ⟨(c1_forced_start_and_single_reset (mkCtxA (mkRat 1 20)) 20 [0]).1,
   (c1_forced_start_and_single_reset (mkCtxA (mkRat 1 20)) 20 [0]).2.1 _
     Relation.ReflTransGen.refl⟩

/-- C1 counterexample: in the concrete `mkCtxA (1/20)` run, the pass that
    fires the one-time reset has Included size 1, inside the bounds
    [min_vars, max_vars] = [1, 12]: the claim's "size is still out of
    bounds" is not required for the reset to fire. -/
theorem c1_counterexample :
    ∃ s2, (iterSt (mkCtxA (mkRat 1 20)) 20 1 (initSt [])).bind
        (midSt (mkCtxA (mkRat 1 20))) = some s2 ∧
      (postDrop (mkCtxA (mkRat 1 20)) s2 true).1.nresets = s2.nresets + 1 ∧
      (mkCtxA (mkRat 1 20)).min_vars ≤ s2.included.length ∧
      s2.included.length ≤ (mkCtxA (mkRat 1 20)).max_vars := by
  have hobs : ((iterSt (mkCtxA (mkRat 1 20)) 20 1 (initSt [])).bind
      (midSt (mkCtxA (mkRat 1 20)))).map
      (fun s => (s.included, s.nresets, s.dropped, s.t_in, s.onetime)) =
      some ([1], 0, true, mkRat 1 10, true) := by decide
  cases h : (iterSt (mkCtxA (mkRat 1 20)) 20 1 (initSt [])).bind
      (midSt (mkCtxA (mkRat 1 20))) with
  | none => rw [h] at hobs; exact absurd hobs (by simp)
  | some s2 =>
    rw [h] at hobs
    simp only [Option.map_some', Option.some.injEq, Prod.mk.injEq] at hobs
    obtain ⟨h1, h2, h3, h4, h5⟩ := hobs
    refine ⟨s2, rfl, ?_, ?_, ?_⟩
    · simp only [postDrop, h3, h4, h5]
      simp
    · rw [h1]
      decide
    · rw [h1]
      decide

/-- C2 (confirmed): a missing value in the target short-circuits the whole
    procedure on lines 38-39: empty selection, sentinel (NaN) model and
    threshold, and a fit counter still at zero — no fit is performed. -/
theorem c2_nan_target (ctx : Ctx) (l : List ℕ) (y : List (Option ℚ))
    (fI fuel : ℕ) (h : y.any (fun v => v.isNone) = true) :
    stepwise_selection ctx l y fI fuel =
      some { included := [], model := none, t_in := none, nfits := 0 } := by
  rw [stepwise_selection, if_pos h]

theorem c2_nan_target_witness :
    stepwise_selection (mkCtxA (mkRat 1 20)) [] [some 1, none] 5 5 =
      some { included := [], model := none, t_in := none, nfits := 0 } :=
  c2_nan_target (mkCtxA (mkRat 1 20)) [] [some 1, none] 5 5 rfl

/-- C3 (corrected): with an EMPTY initial list the three parallel sequences
    have equal lengths at every pass boundary, and a backward drop always
    removes one single common index from Included and both tracks.  The
    claim's "for any inputs, including a non-empty initial_list" is wrong:
    with a non-empty initial list the tracks start empty while Included
    does not (lines 29-31), so the invariant is already violated at
    initialization (see the counterexample). -/
theorem c3_track_alignment (ctx : Ctx) (fI : ℕ) :
    (∀ s, Reach ctx fI (initSt []) s →
      s.pvals.length = s.included.length ∧ s.rvals.length = s.included.length) ∧
    (∀ s s' : St, backward ctx s = some (s', true) →
      ∃ i, s'.included = s.included.eraseIdx i ∧
        s'.pvals = s.pvals.eraseIdx i ∧ s'.rvals = s.rvals.eraseIdx i) := by
  constructor
  · intro s hs
    induction hs with
    | refl => exact ⟨rfl, rfl⟩
    | tail _ hstep ih => exact step_align hstep ih
  · intro s s' hb
    simp only [backward] at hb
    split at hb
    · simp at hb
    · next p ps heq =>
      split at hb
      · split at hb
        · simp only [Option.some.injEq, Prod.mk.injEq] at hb
          refine ⟨s.included.indexOf (s.included.getD (argmaxIdx p ps) 0),
            ?_, ?_, ?_⟩
          · rw [← hb.1]
            exact (List.eraseIdx_indexOf_eq_erase _ _).symm
          · rw [← hb.1]
          · rw [← hb.1]
        · exact absurd hb (by simp)
      · simp at hb

theorem c3_track_alignment_witness :
    (initSt []).pvals.length = (initSt []).included.length ∧
    (initSt []).rvals.length = (initSt []).included.length :=
  (c3_track_alignment (mkCtxA (mkRat 1 20)) 20).1 _ Relation.ReflTransGen.refl

/-- C3 counterexample: with `initial_list = [0]` the Included set has
    length 1 at initialization while the p-value track is empty. -/
theorem c3_counterexample :
    ¬ (initSt [0]).pvals.length = (initSt [0]).included.length := by
  decide

/-- C4 (corrected): the working threshold is an integer multiple of 0.01
    inside [0.01, 0.1] at every reachable outer state and across every
    tightening iteration, PROVIDED the caller-seeded `threshold_in` is
    itself such a value: the one-time reset (line 141) writes the caller's
    raw value into the working threshold, so an off-grid or out-of-range
    seed breaks the claimed unconditional invariant (counterexample with
    seed 1/200). -/
theorem c4_threshold_invariant (ctx : Ctx) (fI : ℕ)
    (hctx : Pth ctx.threshold_in) :
    (∀ t : ℚ, Pth t → 1/100 ≤ t ∧ t ≤ 1/10) ∧
    (∀ (l : List ℕ) (s : St), Reach ctx fI (initSt l) s → Pth s.t_in) ∧
    (∀ ts : TState, Pth ts.t_in →
      Pth (Sum.elim TState.t_in TState.t_in (tightenStep ctx ts))) := by
  refine ⟨?_, ?_, fun ts h => tightenStep_Pth ctx ts h⟩
  · rintro t ⟨k, hk1, hk10, rfl⟩
    constructor
    · calc (1 : ℚ)/100 = ((1 : ℤ) : ℚ)/100 := by norm_num
        _ ≤ (k : ℚ)/100 := intDiv_le_intDiv hk1
    · calc (k : ℚ)/100 ≤ ((10 : ℤ) : ℚ)/100 := intDiv_le_intDiv hk10
        _ = 1/10 := by norm_num
  · intro l s hs
    induction hs with
    | refl => exact ⟨10, by omega, by omega, by rw [show (initSt l).t_in = mkRat 1 10 from rfl, mkRatq]; norm_num⟩
    | tail _ hstep ih => exact step_Pth hctx hstep ih

theorem c4_threshold_invariant_witness :
    Pth (initSt ([] : List ℕ)).t_in :=
  (c4_threshold_invariant (mkCtxA (mkRat 1 20)) 20
      ⟨5, by omega, by omega,
        by rw [show (mkCtxA (mkRat 1 20)).threshold_in = mkRat 1 20 from rfl, mkRatq]; norm_num⟩).2.1
    [] _ Relation.ReflTransGen.refl

/-- C4 counterexample: with caller seed 1/200 the run reaches a state whose
    working threshold is 1/200 < 0.01, violating the claimed range. -/
theorem c4_counterexample :
    ∃ s, Reach (mkCtxA (mkRat 1 200)) 20 (initSt []) s ∧ s.t_in < 1/100 := by
  have hobs : (iterSt (mkCtxA (mkRat 1 200)) 20 2 (initSt [])).map St.t_in =
      some (mkRat 1 200) := by decide
  cases h : iterSt (mkCtxA (mkRat 1 200)) 20 2 (initSt []) with
  | none => rw [h] at hobs; exact absurd hobs (by simp)
  | some s =>
    rw [h] at hobs
    simp only [Option.map_some', Option.some.injEq] at hobs
    refine ⟨s, iterSt_reach _ _ _ _ _ h, ?_⟩
    rw [hobs, mkRatq]
    norm_num

/-- C5 (corrected): re-running `stepwise_selection` on the returned
    selection with the returned threshold does NOT in general terminate
    immediately with the same set, because line 33 forces the working
    threshold back to 0.1 on re-entry: any candidate with p-value between
    the returned threshold and 0.1 is added again (counterexample).
    Immediate same-set termination is guaranteed whenever the selection is
    inside the size bounds, stable under the backward step, and no
    excluded candidate beats the FORCED restart threshold 0.1 — the passed
    threshold value plays no role.  The condition is sufficient, not
    necessary: the stall break of line 175 can also stop a re-run at once
    with the set unchanged while it is below `min_vars`. -/
theorem c5_rerun_stable (ctx : Ctx) (S : List ℕ) (y : List (Option ℚ))
    (fI fuel : ℕ)
    (hy : y.any (fun v => v.isNone) = false)
    (hmin : ctx.min_vars ≤ S.length) (hmax : S.length ≤ ctx.max_vars)
    (hfwd : ∀ c ∈ ctx.excl S, ¬ ((ctx.fit (S ++ [c])).pvalue c < mkRat 1 10))
    (hbwd : ∀ x ∈ S.map (ctx.fit S).pvalue, x ≤ ctx.threshold_out) :
    (forward ctx (initSt S)).2 = false ∧
    stepwise_selection ctx S y fI (fuel + 1) =
      some { included := S, model := some (ctx.fit S), t_in := some (1/10),
             nfits := (ctx.excl S).length + 1 } := by
  constructor
  · rw [forward_noadd ctx (initSt S) hfwd]
  · have hso := stepOuter_stop ctx fI (initSt S) hfwd hbwd hmin hmax
    rw [stepwise_selection, if_neg (by simp [hy]), run, hso]
    simp [initSt, mkRat_tenth]

theorem c5_rerun_stable_witness :
    (forward c5wctx (initSt [0])).2 = false ∧
    stepwise_selection c5wctx [0] [some 0] 5 (0 + 1) =
      some { included := [0], model := some (c5wctx.fit [0]),
             t_in := some (1/10), nfits := (c5wctx.excl [0]).length + 1 } :=
  c5_rerun_stable c5wctx [0] [some 0] 5 0 rfl (by decide) (by decide)
    (by decide) (by decide)

/-- C5 counterexample: the `mkCtxA (1/20)` run from an empty initial list
    returns the selection `[0]` with final threshold 1/20; re-running with
    `initial_list = [0]` (and the identical context, whose seed is that
    same 1/20) performs an addition in its very first forward step — the
    working threshold was forced back to 0.1 and candidate 1 has p-value
    1/20 < 0.1 — so it neither terminates immediately nor performs no
    further additions. -/
theorem c5_counterexample :
    resObs (stepwise_selection (mkCtxA (mkRat 1 20)) [] [some 0] 20 10) =
      some ([0], some (mkRat 1 20), 10) ∧
    (forward (mkCtxA (mkRat 1 20)) (initSt [0])).2 = true ∧
    (forward (mkCtxA (mkRat 1 20)) (initSt [0])).1.included = [0, 1] := by
  exact ⟨by decide, by decide, by decide⟩

/-- C6 (confirmed): within one execution of the over-capacity tightening
    sub-loop, every iteration that continues (the `continue`s of lines 112
    and 130) strictly lowers the working threshold, so the successive
    threshold values are non-increasing until the sub-loop terminates; the
    only raise (line 123) happens inside the terminating iteration,
    immediately before the `break`. -/
theorem c6_tighten_monotone (ctx : Ctx) (ts ts' : TState)
    (h : tightenStep ctx ts = .inl ts') : ts'.t_in < ts.t_in := by
  simp only [tightenStep] at h
  split at h
  · next hc =>
    simp only [Sum.inl.injEq] at h
    rw [← h]
    show round2 (max (mkRat 1 100) (qsub ts.t_in (mkRat 1 100))) < ts.t_in
    have hne := hc.2.1
    rw [qsub_eq, mkRat_hundredth] at hne ⊢
    exact round2_lower_lt hne
  · split at h
    · exact absurd h (by simp)
    · split at h
      · exact absurd h (by simp)
      · next hc2 hc3 =>
        simp only [Sum.inl.injEq] at h
        rw [← h]
        show round2 (max (mkRat 1 100) (qsub ts.t_in (mkRat 1 100))) < ts.t_in
        push_neg at hc3
        have hne := hc3.2.2
        rw [qsub_eq, mkRat_hundredth] at hne ⊢
        exact round2_lower_lt hne

theorem c6_tighten_monotone_witness :
    tightenStep c6ctx c6ts = .inl c6ts' ∧ c6ts'.t_in < c6ts.t_in :=
  ⟨by decide, c6_tighten_monotone c6ctx c6ts c6ts' (by decide)⟩

/-- C7 (corrected): when the over-capacity handler truncates, the final
    mask decides the cut.  On the prefix-size exit (line 115) the mask is
    over the p-value track under the exit threshold and the survivor count
    is the contiguous prefix count, as the claim says.  But when the
    quality path set `rcond` (lines 119-128) the mask is over the R-VALUE
    track (line 121), not the p-value track, the threshold-passing prefix
    count does not give the survivor count (see the counterexample), and
    cut positions up to index 3 are discarded so more than 3 features
    survive a truncation; a refit on the truncated set is performed and
    the outer loop exits. -/
theorem c7_overcap_truncation (ctx : Ctx) (s : St) (fI : ℕ) (tf : TState)
    (h999 : ctx.max_vars < 999) (hrc : s.rcond = false)
    (ht : tightenRun ctx fI (initTState s) = some tf) :
    tf.pvals = s.pvals ∧
    ∀ k, (mfalseOf tf.rcond tf.mask).head? = some k →
      overCap ctx fI s = some
        { included := s.included.take k,
          model := some (ctx.fit (s.included.take k)),
          t_in := some tf.t_in, nfits := s.nfits + 1 } ∧
      (tf.rcond = true → 3 < k) ∧
      (tf.rcond = false →
        tf.mask = s.pvals.map (fun q => decide (q < tf.t_in)) ∧
        k = leadTrueCount tf.mask ∧
        ctx.min_vars ≤ k ∧ k ≤ ctx.max_vars) := by
  have hchar := tightenRun_char fI (initTState s) tf (TInv_init h999 hrc) ht
  refine ⟨hchar.1, ?_⟩
  intro k hk
  refine ⟨?_, ?_, ?_⟩
  · simp only [overCap]
    rw [if_neg (by omega), ht]
    dsimp only
    rw [hk]
  · intro hrc1
    rw [mfalseOf, if_pos hrc1] at hk
    have hmem := List.mem_of_mem_head? (Option.mem_def.mpr hk)
    have hmem2 := List.mem_filter.mp hmem
    simpa using hmem2.2
  · intro hrc0
    rcases hchar.2.2 with ⟨-, hmask, hps, hmin, hmax⟩ | ⟨hrc1, -⟩
    · rw [mfalseOf, if_neg (by simp [hrc0])] at hk
      obtain ⟨hlead, -⟩ := head_falseIdxs hk
      exact ⟨hmask, hlead.symm, by omega, by omega⟩
    · rw [hrc0] at hrc1
      exact absurd hrc1 (by simp)

theorem c7_overcap_truncation_witness :
    overCap c7ctx 12 sW7 = some
      { included := sW7.included.take 4,
        model := some (c7ctx.fit (sW7.included.take 4)),
        t_in := some tf7.t_in, nfits := sW7.nfits + 1 } ∧ 3 < 4 := by
  have h := (c7_overcap_truncation c7ctx sW7 12 tf7 (by decide) rfl
    (by decide)).2 4 (by decide)
  exact ⟨h.1, h.2.1 rfl⟩

/-- C7 counterexample: in the concrete `c7ctx` run, over-capacity handling
    exits through the quality path; the run keeps 4 features, while the
    contiguous prefix of the recorded p-value track passing the tightened
    threshold has length 5 under the returned exit threshold 3/50 and
    length 2 under the last lowered threshold 1/20 — neither equals the
    survivor count. -/
theorem c7_counterexample :
    ((iterSt c7ctx 12 4 (initSt [])).bind (midSt c7ctx)).map St.pvals =
      some [mkRat 1 1000, mkRat 1 500, mkRat 1 20, mkRat 1 20, mkRat 1 20] ∧
    resObs (run c7ctx 12 9 (initSt [])) =
      some ([0, 1, 2, 3], some (mkRat 3 50), 21) ∧
    leadTrueCount ([mkRat 1 1000, mkRat 1 500, mkRat 1 20, mkRat 1 20,
      mkRat 1 20].map (fun q => decide (q < mkRat 3 50))) = 5 ∧
    leadTrueCount ([mkRat 1 1000, mkRat 1 500, mkRat 1 20, mkRat 1 20,
      mkRat 1 20].map (fun q => decide (q < mkRat 1 20))) = 2 ∧
    ([0, 1, 2, 3] : List ℕ).length = 4 ∧ (4 : ℕ) ≠ 5 ∧ (4 : ℕ) ≠ 2 :=
  ⟨by decide, by decide, by decide, by decide, by decide, by decide, by decide⟩

/-- C8 (confirmed): the backward step fits one model on the whole current
    Included set plus intercept; when the maximal non-intercept p-value
    exceeds `threshold_out`, the first feature attaining that maximum is
    removed from Included and from both tracks at the very same index, and
    the pass's change flag and the sticky `dropped` flag are both set (the
    returned `true`).  Stated for any aligned, duplicate-free Included
    set. -/
theorem c8_backward_drop (ctx : Ctx) (s : St) (c : ℕ) (cs : List ℕ)
    (hcons : s.included = c :: cs) (hnd : s.included.Nodup)
    (hp : s.pvals.length = s.included.length)
    (hr : s.rvals.length = s.included.length)
    (hworst : ctx.threshold_out <
      listMax ((ctx.fit s.included).pvalue c)
        (cs.map (ctx.fit s.included).pvalue)) :
    ∃ i, i = argmaxIdx ((ctx.fit s.included).pvalue c)
        (cs.map (ctx.fit s.included).pvalue) ∧
      i < s.included.length ∧
      (s.included.map (ctx.fit s.included).pvalue).getD i 0 =
        listMax ((ctx.fit s.included).pvalue c)
          (cs.map (ctx.fit s.included).pvalue) ∧
      (∀ j, j < i → (s.included.map (ctx.fit s.included).pvalue).getD j 0 <
        listMax ((ctx.fit s.included).pvalue c)
          (cs.map (ctx.fit s.included).pvalue)) ∧
      backward ctx s = some
        ({ s with included := s.included.eraseIdx i,
                  pvals := s.pvals.eraseIdx i, rvals := s.rvals.eraseIdx i,
                  model := some (ctx.fit s.included), nfits := s.nfits + 1,
                  dropped := true }, true) := by
  obtain ⟨inc, pv, rv, t, lo, rc, dr, ot, mo, nf, nr⟩ := s
  dsimp only at hcons hnd hp hr hworst ⊢
  subst hcons
  have hlen' : argmaxIdx ((ctx.fit (c :: cs)).pvalue c)
      (cs.map (ctx.fit (c :: cs)).pvalue) < (c :: cs).length := by
    have := argmaxIdx_lt ((ctx.fit (c :: cs)).pvalue c)
      (cs.map (ctx.fit (c :: cs)).pvalue)
    simpa using this
  have hidx : (c :: cs).indexOf ((c :: cs).getD
      (argmaxIdx ((ctx.fit (c :: cs)).pvalue c)
        (cs.map (ctx.fit (c :: cs)).pvalue)) 0) =
      argmaxIdx ((ctx.fit (c :: cs)).pvalue c)
        (cs.map (ctx.fit (c :: cs)).pvalue) := by
    rw [getD_lt hlen']
    exact List.indexOf_getElem hnd _ hlen'
  refine ⟨argmaxIdx ((ctx.fit (c :: cs)).pvalue c)
    (cs.map (ctx.fit (c :: cs)).pvalue), rfl, hlen', ?_, ?_, ?_⟩
  · rw [List.map_cons]
    exact getD_argmaxIdx _ _
  · intro j hj
    rw [List.map_cons]
    exact argmaxIdx_first _ _ j hj
  · simp only [backward, List.map_cons]
    rw [if_pos hworst, hidx,
      if_pos ⟨by rw [hp]; exact hlen', by rw [hr]; exact hlen'⟩,
      ← List.eraseIdx_indexOf_eq_erase, hidx]

theorem c8_backward_drop_witness :
    ∃ i, backward (mkCtxA (mkRat 1 20)) s8 = some
      ({ s8 with included := s8.included.eraseIdx i,
                 pvals := s8.pvals.eraseIdx i, rvals := s8.rvals.eraseIdx i,
                 model := some ((mkCtxA (mkRat 1 20)).fit s8.included),
                 nfits := s8.nfits + 1, dropped := true }, true) := by
  obtain ⟨i, -, -, -, -, hb⟩ :=
    c8_backward_drop (mkCtxA (mkRat 1 20)) s8 0 [1] rfl (by decide) rfl rfl
      (by decide)
  exact ⟨i, hb⟩

/-- C9 (corrected): the forward step deterministically adds the FIRST
    candidate, in the iteration order of the excluded set, that attains the
    minimal forward p-value.  That order — `list(set(X.columns) -
    set(included))`, line 45 — is however not a function of the inputs:
    Python string-set iteration order varies between processes, and two
    valid orders of the same excluded set pick different features on a tie
    (see the counterexample), so the code has no input-determined tie-break
    rule and cross-run determinism holds only for a fixed set order. -/
theorem c9_forward_tiebreak (ctx : Ctx) (s : St) (p : ℚ) (ps : List ℚ)
    (hpv : (ctx.excl s.included).map
        (fun c => (ctx.fit (s.included ++ [c])).pvalue c) = p :: ps)
    (hlt : listMin p ps < s.t_in) :
    (forward ctx s).2 = true ∧
    (forward ctx s).1.included =
      s.included ++ [(ctx.excl s.included).getD (argminIdx p ps) 0] ∧
    (p :: ps).getD (argminIdx p ps) 0 = listMin p ps ∧
    (∀ j, j < argminIdx p ps → listMin p ps < (p :: ps).getD j 0) := by
  have hF : forward ctx s = ({ s with
      included := s.included ++ [(ctx.excl s.included).getD (argminIdx p ps) 0],
      pvals := s.pvals ++ [listMin p ps],
      rvals := s.rvals ++ [((ctx.excl s.included).map
        (fun c => round3 (ctx.fit (s.included ++ [c])).rsquared)).getD
          (argminIdx p ps) 0],
      nfits := s.nfits + (ctx.excl s.included).length }, true) := by
    simp only [forward]
    rw [hpv]
    dsimp only
    rw [if_pos hlt]
  refine ⟨by rw [hF], by rw [hF], getD_argminIdx p ps, argminIdx_first p ps⟩

theorem c9_forward_tiebreak_witness :
    (forward ctxTieA (initSt [])).2 = true ∧
    (forward ctxTieA (initSt [])).1.included =
      (initSt []).included ++
        [(ctxTieA.excl (initSt []).included).getD
          (argminIdx (mkRat 1 20) [mkRat 1 20]) 0] ∧
    ((mkRat 1 20) :: [mkRat 1 20]).getD
      (argminIdx (mkRat 1 20) [mkRat 1 20]) 0 =
      listMin (mkRat 1 20) [mkRat 1 20] ∧
    (∀ j, j < argminIdx (mkRat 1 20) [mkRat 1 20] →
      listMin (mkRat 1 20) [mkRat 1 20] <
        ((mkRat 1 20) :: [mkRat 1 20]).getD j 0) :=
  c9_forward_tiebreak ctxTieA (initSt []) (mkRat 1 20) [mkRat 1 20]
    (by decide) (by decide)

/-- C9 counterexample: two contexts with identical columns, identical fits
    (they share the very same fitter `tieFit` and thresholds) and tied
    candidate p-values, differing only in the iteration order of the
    excluded set, add different features in the forward step. -/
theorem c9_counterexample :
    ctxTieA.cols = ctxTieB.cols ∧ ctxTieA.fit = ctxTieB.fit ∧
    ctxTieA.threshold_in = ctxTieB.threshold_in ∧
    ctxTieA.threshold_out = ctxTieB.threshold_out ∧
    ctxTieA.max_vars = ctxTieB.max_vars ∧ ctxTieA.min_vars = ctxTieB.min_vars ∧
    ctxTieA.excl [] = [0, 1] ∧ ctxTieB.excl [] = [1, 0] ∧
    (forward ctxTieA (initSt [])).1.included = [0] ∧
    (forward ctxTieB (initSt [])).1.included = [1] ∧
    ([0] : List ℕ) ≠ [1] :=
  ⟨rfl, rfl, rfl, rfl, rfl, rfl, by decide, by decide, by decide, by decide,
   by decide⟩

/-- C10 (corrected): if the final mask of the over-capacity handler — over
    the p-value track on the prefix-size exit, but over the R-VALUE track
    when `rcond` was set, which the claim's "mask over the p-value track"
    misses (see the counterexample) — has no failing entry after the rcond
    filter, then Included is returned untruncated, no further fit happens
    in that branch (fit count unchanged), and the returned model is the
    model the backward step of that final pass recorded. -/
theorem c10_overcap_no_truncation (ctx : Ctx) (s : St) (fI : ℕ) (tf : TState)
    (h999 : ctx.max_vars < 999)
    (ht : tightenRun ctx fI (initTState s) = some tf)
    (hnone : (mfalseOf tf.rcond tf.mask).head? = none) :
    overCap ctx fI s = some
      { included := s.included, model := s.model, t_in := some tf.t_in,
        nfits := s.nfits } := by
  simp only [overCap]
  rw [if_neg (by omega), ht]
  dsimp only
  rw [hnone]

theorem c10_overcap_no_truncation_witness :
    overCap c7ctx 12 sW10 = some
      { included := sW10.included, model := sW10.model,
        t_in := some tf10.t_in, nfits := sW10.nfits } :=
  c10_overcap_no_truncation c7ctx sW10 12 tf10 (by decide) (by decide)
    (by decide)

/-- C10 counterexample: in the `c7ctx` run the quality path sets `rcond`;
    the p-value-track mask under the exit threshold 3/50 has no failing
    entry at all (so none after discarding indices up to 3 either), yet the
    Included set is returned truncated from five features to four — the
    mask that matters there is the r-value one. -/
theorem c10_counterexample :
    (mfalseOf true ([mkRat 1 1000, mkRat 1 500, mkRat 1 20, mkRat 1 20,
      mkRat 1 20].map (fun q => decide (q < mkRat 3 50)))).head? = none ∧
    ((iterSt c7ctx 12 4 (initSt [])).bind (midSt c7ctx)).map St.pvals =
      some [mkRat 1 1000, mkRat 1 500, mkRat 1 20, mkRat 1 20, mkRat 1 20] ∧
    resObs (run c7ctx 12 9 (initSt [])) =
      some ([0, 1, 2, 3], some (mkRat 3 50), 21) ∧
    ([0, 1, 2, 3] : List ℕ) ≠ [0, 1, 2, 3, 4] :=
  ⟨by decide, by decide, by decide, by decide⟩

end Pstat
